import Mathlib

/-!
Verification development for the mogi SQL-mocking engine as described by the
repository's specification, together with the example code `beer.go` that the
repository itself contains.  The engine's implementation is not part of the
repository's source tree (only its README-documented usage and the example
`GetBeer` function are), so every engine component below is modelled from the
specification's own description: the data model of §3, the stub builder of
§4.1, the matcher of §4.2, the driver adapter of §4.3, the value decoder of
§4.4 and the lifecycle operations of §4.5.  `GetBeer` and `Beer` are
translated from `src/beer.go`.
-/

/-- Modelled from the spec: statement kinds of a `QueryIntent`
(SELECT/INSERT/UPDATE/DELETE/other), §3.  The engine implementation is not in
the source tree. -/
inductive StmtKind where
  | select
  | insert
  | update
  | delete
  | other
deriving DecidableEq, Repr

/-- Modelled from the spec: the tagged-variant value type of the design notes
(integer | float | text | null).  Floating-point literals are decimal
numbers, represented exactly as a scaled integer: `float m e` denotes
`m / 10 ^ e`. -/
inductive Value where
  | int (m : Int)
  | float (m : Int) (e : Nat)
  | text (s : String)
  | null
deriving DecidableEq, Repr

/-- Modelled from the spec: explicit column types a stub may declare (§4.4),
taking precedence over numeric-then-text inference. -/
inductive ColType where
  | int
  | float
  | text
deriving DecidableEq, Repr

/-- Modelled from the spec: the error kinds of §7 plus the host SQL layer's
no-rows error used by the example test.  `errNoRows` models `sql.ErrNoRows`,
`errUnstubbed` the `Unstubbed` kind, `malformedLiteral` the decoder failure,
`scanMismatch` a scan conversion failure in the host layer. -/
inductive GoError where
  | errNoRows
  | errUnstubbed
  | malformedLiteral
  | scanMismatch
  | other (s : String)
deriving DecidableEq, Repr

/-- Modelled from the spec: a RowSet is an ordered sequence of rows of typed
values (§3). -/
abbrev RowSet := List (List Value)

/- ## Character-level utilities of the value decoder (§4.4).
The literal format is comma-separated fields, newline-separated rows; each
field is trimmed and converted. -/

/-- Whitespace test used by field trimming. -/
def isWS (c : Char) : Bool :=
  c = ' ' || c = '\t' || c = '\r' || c = '\n'

/-- Decimal digit test on a character, by code point. -/
def isDigitC (c : Char) : Bool :=
  48 ≤ c.toNat && c.toNat ≤ 57

/-- Numeric value of a digit character. -/
def digitVal (c : Char) : Nat := c.toNat - 48

/-- Split a character list at every occurrence of `sep`; always returns at
least one (possibly empty) part. -/
def splitChars (sep : Char) : List Char → List (List Char)
  | [] => [[]]
  | c :: cs =>
    if c = sep then [] :: splitChars sep cs
    else
      match splitChars sep cs with
      | [] => [[c]]
      | p :: ps => (c :: p) :: ps

/-- Join parts with a separator character; inverse of `splitChars` on
separator-free parts. -/
def intercalateChar (sep : Char) : List (List Char) → List Char
  | [] => []
  | [p] => p
  | p :: ps => p ++ sep :: intercalateChar sep ps

/-- Trim leading and trailing whitespace from a character list. -/
def trimChars (cs : List Char) : List Char :=
  ((cs.dropWhile isWS).reverse.dropWhile isWS).reverse

/-- Most-significant-first numeric value of a digit-character list. -/
def natVal (cs : List Char) : Nat :=
  cs.foldl (fun a c => 10 * a + digitVal c) 0

/-- Parse a non-empty all-digit character list as a natural number. -/
def parseNatChars (cs : List Char) : Option Nat :=
  if cs.isEmpty then none
  else if cs.all isDigitC then some (natVal cs) else none

/-- Parse an integer literal: an optional sign followed by digits
("integer if all digits/optional sign", §4.4). -/
def parseIntChars (cs : List Char) : Option Int :=
  match cs with
  | [] => none
  | c :: rest =>
    if c = '-' then (parseNatChars rest).map (fun n : Nat => -(n : Int))
    else if c = '+' then (parseNatChars rest).map (fun n : Nat => (n : Int))
    else (parseNatChars cs).map (fun n : Nat => (n : Int))

/-- Parse an unsigned decimal literal `digits.digits` (fractional part
non-empty) as a scaled natural: the result `(v, e)` denotes `v / 10 ^ e`. -/
def parseDecParts (ip fp : List Char) : Option (Nat × Nat) :=
  if fp.isEmpty then none
  else if ip.all isDigitC && fp.all isDigitC then
    some (natVal ip * 10 ^ fp.length + natVal fp, fp.length)
  else none

/-- Parse an unsigned decimal literal by splitting at the dot. -/
def parseDecCore (cs : List Char) : Option (Nat × Nat) :=
  match splitChars '.' cs with
  | [ip, fp] => parseDecParts ip fp
  | _ => none

/-- Parse a signed decimal literal ("floating point if it parses as a decimal
number", §4.4), as an exact scaled integer. -/
def parseDecChars (cs : List Char) : Option (Int × Nat) :=
  match cs with
  | [] => none
  | c :: rest =>
    if c = '-' then (parseDecCore rest).map (fun p : Nat × Nat => (-(p.1 : Int), p.2))
    else if c = '+' then (parseDecCore rest).map (fun p : Nat × Nat => ((p.1 : Int), p.2))
    else (parseDecCore cs).map (fun p : Nat × Nat => ((p.1 : Int), p.2))

/-- Little-endian digit list of `n` (empty for zero), with explicit fuel so
that the recursion is structural. -/
def digitsRev : Nat → Nat → List Nat
  | 0, _ => []
  | fuel + 1, n => if n = 0 then [] else n % 10 :: digitsRev fuel (n / 10)

/-- Value of a little-endian digit list. -/
def ofRev : List Nat → Nat
  | [] => 0
  | d :: ds => d + 10 * ofRev ds

/-- Render a natural number in decimal, most significant digit first. -/
def natToChars (n : Nat) : List Char :=
  if n = 0 then ['0'] else ((digitsRev n n).map Nat.digitChar).reverse

/-- Render an integer in decimal. -/
def intToChars (m : Int) : List Char :=
  if m < 0 then '-' :: natToChars m.natAbs else natToChars m.natAbs

/-- Left-pad the decimal rendering of `r` with zeros to exactly `e` digits. -/
def padDigits (e : Nat) (r : Nat) : List Char :=
  List.replicate (e - (natToChars r).length) '0' ++ natToChars r

/-- Render the scaled integer `m / 10 ^ e` as a decimal literal with exactly
`e` fractional digits (no dot when `e = 0`). -/
def decToChars (m : Int) (e : Nat) : List Char :=
  if e = 0 then intToChars m
  else
    (if m < 0 then ['-'] else []) ++
      natToChars (m.natAbs / 10 ^ e) ++ '.' :: padDigits e (m.natAbs % 10 ^ e)

/-- Literal form of a single typed value, §6's literal row format. -/
def encodeValChars : Value → List Char
  | .int m => intToChars m
  | .float m e => decToChars m e
  | .text s => s.data
  | .null => []

/-- Best-effort conversion of a (trimmed) field: integer, then floating
point, then text (§4.4). -/
def inferValue (cs : List Char) : Value :=
  match parseIntChars cs with
  | some m => .int m
  | none =>
    match parseDecChars cs with
    | some p => .float p.1 p.2
    | none => .text (String.mk cs)

/-- Conversion of a (trimmed) field under an explicitly declared column type
(§4.4: declared types take precedence); an unparsable numeric field is kept
as text. -/
def convertField : ColType → List Char → Value
  | .int, cs =>
    match parseIntChars cs with
    | some m => .int m
    | none => .text (String.mk cs)
  | .float, cs =>
    match parseDecChars cs with
    | some p => .float p.1 p.2
    | none =>
      match parseIntChars cs with
      | some m => .float m 0
      | none => .text (String.mk cs)
  | .text, cs => .text (String.mk cs)

/-- Modelled from the spec: a decoding context — either explicitly declared
column types, or a plain expected column count with type inference (§4.4). -/
inductive DecodeSpec where
  | typed (ts : List ColType)
  | untyped (n : Nat)
deriving DecidableEq, Repr

/-- The column count a row of the literal must have (§4.4). -/
def expectedCount : DecodeSpec → Nat
  | .typed ts => ts.length
  | .untyped n => n

/-- Convert the raw fields of one row, trimming each field first. -/
def convertRow : DecodeSpec → List (List Char) → List Value
  | .typed ts, fs => List.zipWith (fun t f => convertField t (trimChars f)) ts fs
  | .untyped _, fs => fs.map (fun f => inferValue (trimChars f))

/-- Decode one line of the literal; `none` when its field count differs from
the expected column count. -/
def decodeLine (sp : DecodeSpec) (line : List Char) : Option (List Value) :=
  let fs := splitChars ',' line
  if fs.length = expectedCount sp then some (convertRow sp fs) else none

/-- Sequence a list of optional results, failing if any element fails. -/
def mapO (f : α → Option β) : List α → Option (List β)
  | [] => some []
  | x :: xs =>
    match f x, mapO f xs with
    | some y, some ys => some (y :: ys)
    | _, _ => none

/-- Modelled from the spec: the value decoder (§4.4) — rows separated by line
breaks, fields by commas, each field trimmed and converted; fails with
`MalformedLiteral` when a row's field count does not match the expected
column count. -/
def decodeCSV (sp : DecodeSpec) (lit : String) : Except GoError RowSet :=
  match mapO (decodeLine sp) (splitChars '\n' lit.data) with
  | some rows => .ok rows
  | none => .error .malformedLiteral

/-- Literal form of a RowSet: comma-separated values per line, one line per
row (§6). -/
def encodeRows (rs : RowSet) : String :=
  String.mk (intercalateChar '\n'
    (rs.map (fun row => intercalateChar ',' (row.map encodeValChars))))

/- ## Stub registry, builder and matcher (§3, §4.1, §4.2). -/

/-- Modelled from the spec: a structured query intent (§3) — statement kind,
optional target table, requested columns, equality predicates. -/
structure QueryIntent where
  kind : StmtKind
  table : Option String
  columns : List String
  predicates : List (String × Value)
deriving DecidableEq, Repr

/-- Modelled from the spec: a stub's response — a literal row representation
(decoded against the stub's declared columns, or the query's requested
columns when none were declared) or an error value (§3, §4.1). -/
inductive StubResponse where
  | rowsLit (lit : String)
  | err (e : GoError)
deriving DecidableEq, Repr

/-- Modelled from the spec: a registered stub (§3) — registration id, partial
pattern, optional explicit priority, optional declared column types, and a
response. -/
structure Stub where
  id : Nat
  kind : StmtKind
  tableFilter : Option String
  columnFilter : List String
  whereFilters : List (String × Value)
  explicitPriority : Option Int
  colTypes : Option (List ColType)
  response : StubResponse
deriving DecidableEq, Repr

/-- Modelled from the spec: the process-wide ordered collection of stubs
(§3). -/
abbrev Registry := List Stub

/-- Lookup of an equality predicate by column name. -/
def lookupPred : List (String × Value) → String → Option Value
  | [], _ => none
  | p :: ps, c => if p.1 = c then some p.2 else lookupPred ps c

/-- Modelled from the spec: the matcher's filter step (§4.2 step 1) — the
stub's table filter, when set, equals the intent's table; its column filter,
when non-empty, is a subset of the requested columns; every where-filter is
satisfied by an equal predicate of the intent; and the statement kinds are
compatible. -/
def stubMatches (s : Stub) (q : QueryIntent) : Bool :=
  decide (s.kind = q.kind) &&
  (match s.tableFilter with
   | none => true
   | some t => decide (q.table = some t)) &&
  s.columnFilter.all (fun c => decide (c ∈ q.columns)) &&
  s.whereFilters.all (fun p => decide (lookupPred q.predicates p.1 = some p.2))

/-- Modelled from the spec: the specificity score (§4.2 step 2) — table set
counts one, plus constrained columns, plus constrained predicates. -/
def specificity (s : Stub) : Nat :=
  (if s.tableFilter.isSome then 1 else 0) +
    s.columnFilter.length + s.whereFilters.length

/-- Modelled from the spec: the ranking of §4.2 step 3 as a strict "ranks
above" test.  Explicit-priority stubs rank above all implicit ones; among
explicit ones the higher value wins, ties by lowest id; among implicit ones
the higher specificity wins, ties by lowest id. -/
def betterThan (a b : Stub) : Bool :=
  match a.explicitPriority, b.explicitPriority with
  | some pa, some pb =>
    decide (pb < pa) || (decide (pa = pb) && decide (a.id < b.id))
  | some _, none => true
  | none, some _ => false
  | none, none =>
    decide (specificity b < specificity a) ||
      (decide (specificity a = specificity b) && decide (a.id < b.id))

/-- Pick the top-ranked stub of a candidate list, preferring the earlier
element when neither ranks above the other. -/
def chooseBest : List Stub → Option Stub
  | [] => none
  | s :: rest =>
    match chooseBest rest with
    | none => some s
    | some b => if betterThan b s then some b else some s

/-- Modelled from the spec: the matcher (§4.2) — filter the registry, then
select the top-ranked surviving stub, or report no match. -/
def matchStub (reg : Registry) (q : QueryIntent) : Option Stub :=
  chooseBest (reg.filter (fun s => stubMatches s q))

/- ## Stub builder (§4.1). -/

/-- Modelled from the spec: the fluent builder state, an immutable value
threaded through the chained calls (§4.1, design notes). -/
structure StubBuilder where
  kind : StmtKind
  tableFilter : Option String
  columnFilter : List String
  whereFilters : List (String × Value)
  explicitPriority : Option Int
  colTypes : Option (List ColType)
deriving Repr

/-- Modelled from the spec: `select(columns...)` starts a stub restricted to
SELECT statements matching the given column list; empty list matches any
column set (§4.1). -/
def select (cols : List String) : StubBuilder :=
  { kind := .select, tableFilter := none, columnFilter := cols,
    whereFilters := [], explicitPriority := none, colTypes := none }

/-- Modelled from the spec: `from(table)` restricts to queries whose parsed
target table equals `table` (§4.1). -/
def StubBuilder.fromTable (b : StubBuilder) (t : String) : StubBuilder :=
  { b with tableFilter := some t }

/-- Replace the value bound to a column, or append a new binding. -/
def upsertPred (ps : List (String × Value)) (c : String) (v : Value) :
    List (String × Value) :=
  match ps with
  | [] => [(c, v)]
  | p :: rest => if p.1 = c then (c, v) :: rest else p :: upsertPred rest c v

/-- Modelled from the spec: `where(column, value)` adds an equality
predicate; multiple calls AND together; re-specifying a column overwrites
the prior value (§4.1). -/
def StubBuilder.whereCol (b : StubBuilder) (c : String) (v : Value) : StubBuilder :=
  { b with whereFilters := upsertPred b.whereFilters c v }

/-- Modelled from the spec: `priority(n)` sets the explicit priority
(§4.1). -/
def StubBuilder.priority (b : StubBuilder) (n : Int) : StubBuilder :=
  { b with explicitPriority := some n }

/-- Modelled from the spec: declare explicit column types for the stub's
literal rows (§4.4). -/
def StubBuilder.types (b : StubBuilder) (ts : List ColType) : StubBuilder :=
  { b with colTypes := some ts }

/-- Modelled from the spec: registration appends to the registry with a fresh
monotonically increasing sequence id (§4.1). -/
def registerStub (b : StubBuilder) (r : StubResponse) (reg : Registry) : Registry :=
  reg ++ [{ id := reg.length, kind := b.kind, tableFilter := b.tableFilter,
            columnFilter := b.columnFilter, whereFilters := b.whereFilters,
            explicitPriority := b.explicitPriority, colTypes := b.colTypes,
            response := r }]

/-- Modelled from the spec: `stubRows`/`StubCSV` terminal operation — the
stub answers with the literal rows (§4.1). -/
def StubBuilder.stubCSV (b : StubBuilder) (lit : String) (reg : Registry) : Registry :=
  registerStub b (.rowsLit lit) reg

/-- Modelled from the spec: `stubError(err)` terminal operation — the stub
answers with an error value (§4.1). -/
def StubBuilder.stubError (b : StubBuilder) (e : GoError) (reg : Registry) : Registry :=
  registerStub b (.err e) reg

/-- Modelled from the spec: `reset()` clears the entire registry (§4.5). -/
def reset : Registry → Registry := fun _ => []

/- ## Driver adapter (§4.3). -/

/-- The decoding context a matched stub's literal is decoded under: its
declared column types when present; otherwise the stub's declared column
count, falling back to the query's requested columns when the stub declared
none (§4.1, §4.4). -/
def stubDecodeSpec (s : Stub) (q : QueryIntent) : DecodeSpec :=
  match s.colTypes with
  | some ts => .typed ts
  | none =>
    .untyped (if s.columnFilter.isEmpty then q.columns.length else s.columnFilter.length)

/-- Modelled from the spec: the driver adapter's query path (§4.3) — match
the intent; on no match fail with `Unstubbed`; on a matched error response
propagate it verbatim; on a matched row response decode the literal. -/
def driverQuery (reg : Registry) (q : QueryIntent) : Except GoError RowSet :=
  match matchStub reg q with
  | none => .error .errUnstubbed
  | some s =>
    match s.response with
    | .err e => .error e
    | .rowsLit lit => decodeCSV (stubDecodeSpec s q) lit

/-- The driver's match/answer step in explicit state-passing form: it returns
its answer together with the registry it leaves behind. -/
def queryOp (reg : Registry) (q : QueryIntent) : Except GoError RowSet × Registry :=
  (driverQuery reg q, reg)

/-- Run a sequence of queries, threading the registry state through. -/
def runQueries : Registry → List QueryIntent → List (Except GoError RowSet) × Registry
  | reg, [] => ([], reg)
  | reg, q :: qs =>
    let r := queryOp reg q
    let rest := runQueries r.2 qs
    (r.1 :: rest.1, rest.2)

/- ## The example code, translated from `src/beer.go`. -/

/-- The `Beer` record of `src/beer.go`; `Pct` (a decimal reading of the Go
`float32` field) is represented as a scaled integer `(m, e)` denoting
`m / 10 ^ e`. -/
structure Beer where
  ID : Int
  Name : String
  Pct : Int × Nat
deriving DecidableEq, Repr

/-- The zero value of `Beer`, the initial value of Go's named return. -/
def zeroBeer : Beer := { ID := 0, Name := "", Pct := (0, 0) }

/-- Host-layer scan conversion into an integer destination: integer values
directly, textual values via integer parsing. -/
def scanInt : Value → Option Int
  | .int m => some m
  | .text s => parseIntChars s.data
  | _ => none

/-- Host-layer scan conversion into a text destination. -/
def scanText : Value → Option String
  | .text s => some s
  | .int m => some (String.mk (intToChars m))
  | .float m e => some (String.mk (decToChars m e))
  | .null => none

/-- Host-layer scan conversion into a floating-point destination: decimal
values directly, integers widened, textual values parsed. -/
def scanFloat : Value → Option (Int × Nat)
  | .float m e => some (m, e)
  | .int m => some (m, 0)
  | .text s =>
    match parseDecChars s.data with
    | some p => some p
    | none => (parseIntChars s.data).map (fun m => (m, 0))
  | .null => none

/-- The host layer's `Scan` over the three destinations of `GetBeer`,
assigning destinations left to right and stopping at the first conversion
failure, as the generic scan loop does: destinations before the failing one
keep their assigned values. -/
def scanBeerRow (row : List Value) : Beer × Option GoError :=
  match row with
  | [a, b, c] =>
    match scanInt a with
    | none => (zeroBeer, some .scanMismatch)
    | some i =>
      match scanText b with
      | none => ({ zeroBeer with ID := i }, some .scanMismatch)
      | some nm =>
        match scanFloat c with
        | none => ({ ID := i, Name := nm, Pct := (0, 0) }, some .scanMismatch)
        | some p => ({ ID := i, Name := nm, Pct := p }, none)
  | _ => (zeroBeer, some .scanMismatch)

/-- The query intent the analyzer produces for `GetBeer`'s query text
`SELECT id, name, pct FROM beer WHERE id = ?` with the argument bound
positionally (§4.3). -/
def getBeerIntent (id : Int) : QueryIntent :=
  { kind := .select, table := some "beer", columns := ["id", "name", "pct"],
    predicates := [("id", Value.int id)] }

/-- `GetBeer` from `src/beer.go`: issue the query through the driver, scan
the single expected row into a zero-initialised `Beer`; an empty result is
the host layer's no-rows error. -/
def GetBeer (reg : Registry) (id : Int) : Beer × Option GoError :=
  match driverQuery reg (getBeerIntent id) with
  | .error e => (zeroBeer, some e)
  | .ok [] => (zeroBeer, some .errNoRows)
  | .ok (row :: _) => scanBeerRow row

/- ## Concrete fixtures from the README's tests. -/

/-- The fully specified stub of `TestGetBeer`: table, columns and where all
constrained. -/
def stubFull : Stub :=
  { id := 0, kind := .select, tableFilter := some "beer",
    columnFilter := ["id", "name", "pct"],
    whereFilters := [("id", Value.int 42)], explicitPriority := none,
    colTypes := none, response := .rowsLit "42,Yona Yona Ale,5.5" }

/-- A wildcard catch-all stub on table `beer`: no columns, no predicates. -/
def stubWild : Stub :=
  { id := 1, kind := .select, tableFilter := some "beer", columnFilter := [],
    whereFilters := [], explicitPriority := none, colTypes := none,
    response := .rowsLit "0,z,0.0" }

/-- A stub with an explicit priority and the lowest possible specificity. -/
def stubPrio : Stub :=
  { id := 5, kind := .select, tableFilter := none, columnFilter := [],
    whereFilters := [], explicitPriority := some 0, colTypes := none,
    response := .err .errNoRows }

/-- A catch-all stub: no table, no columns, no predicates, no priority. -/
def stubCatchAll : Stub :=
  { id := 3, kind := .select, tableFilter := none, columnFilter := [],
    whereFilters := [], explicitPriority := none, colTypes := none,
    response := .rowsLit "0,z,0.0" }

/-- The registry of `TestGetBeer`: one fully specified stub built through the
fluent builder. -/
def regBeer : Registry :=
  (((select ["id", "name", "pct"]).fromTable "beer").whereCol
    "id" (.int 42)).stubCSV "42,Yona Yona Ale,5.5" []

/-- The registry of `TestGetBeerMissing`:
`select().from("beer").where("id", 99).stubError(sql.ErrNoRows)`. -/
def regBeerErr : Registry :=
  (((select []).fromTable "beer").whereCol "id" (.int 99)).stubError
    .errNoRows []

/-- A registry whose stub's literal third field is not numeric, so scanning
its row into `GetBeer`'s destinations fails mid-row. -/
def regBad : Registry :=
  (((select []).fromTable "beer").whereCol "id" (.int 1)).stubCSV "1,x,y" []

/- ## Properties of the matcher's ranking. -/

/-- No stub ranks strictly above itself. -/
theorem betterThan_irrefl (a : Stub) : betterThan a a = false := by
  unfold betterThan
  cases a.explicitPriority <;> simp

/-- The ranking is asymmetric. -/
theorem betterThan_asymm {a b : Stub} (h : betterThan a b = true) :
    betterThan b a = false := by
  unfold betterThan at h ⊢
  cases ha : a.explicitPriority <;> cases hb : b.explicitPriority <;>
    rw [ha, hb] at h <;> simp_all <;> omega

/-- The ranking is negatively transitive: a stub ranking above `s` would also
rank above anything `s` does not rank below. -/
theorem betterThan_negtrans {t b s : Stub} (h1 : betterThan t b = false)
    (h2 : betterThan b s = false) : betterThan t s = false := by
  unfold betterThan at h1 h2 ⊢
  cases ht : t.explicitPriority <;> cases hb : b.explicitPriority <;>
    cases hs : s.explicitPriority <;> rw [ht, hb] at h1 <;>
    rw [hb, hs] at h2 <;> simp_all <;> omega

/-- Unfolding equation of `chooseBest` on a non-empty list. -/
theorem chooseBest_cons (s : Stub) (rest : List Stub) :
    chooseBest (s :: rest) =
      match chooseBest rest with
      | none => some s
      | some b => if betterThan b s then some b else some s := rfl

/-- `chooseBest` answers on every non-empty candidate list. -/
theorem chooseBest_ne_none (s : Stub) (rest : List Stub) :
    chooseBest (s :: rest) ≠ none := by
  rw [chooseBest_cons]
  cases chooseBest rest with
  | none => simp
  | some b =>
    simp only []
    split <;> simp

/-- The selected stub is a candidate. -/
theorem chooseBest_mem : ∀ {l : List Stub} {b : Stub},
    chooseBest l = some b → b ∈ l := by
  intro l
  induction l with
  | nil => intro b h; simp [chooseBest] at h
  | cons s rest ih =>
    intro b h
    rw [chooseBest_cons] at h
    cases hr : chooseBest rest with
    | none =>
      rw [hr] at h
      simp only [Option.some.injEq] at h
      subst h
      exact List.mem_cons_self _ _
    | some c =>
      rw [hr] at h
      simp only [] at h
      split at h <;> simp only [Option.some.injEq] at h <;> subst h
      · exact List.mem_cons_of_mem _ (ih hr)
      · exact List.mem_cons_self _ _

/-- No candidate ranks strictly above the selected stub. -/
theorem chooseBest_max : ∀ {l : List Stub} {b : Stub},
    chooseBest l = some b → ∀ s ∈ l, betterThan s b = false := by
  intro l
  induction l with
  | nil => intro b h; simp [chooseBest] at h
  | cons x rest ih =>
    intro b h s hs
    rw [chooseBest_cons] at h
    cases hr : chooseBest rest with
    | none =>
      rw [hr] at h
      have hrest : rest = [] := by
        cases rest with
        | nil => rfl
        | cons y t => exact absurd hr (chooseBest_ne_none y t)
      simp only [Option.some.injEq] at h
      subst h
      subst hrest
      simp only [List.mem_singleton] at hs
      subst hs
      exact betterThan_irrefl s
    | some c =>
      rw [hr] at h
      simp only [] at h
      by_cases hbc : betterThan c x = true
      · rw [if_pos hbc] at h
        simp only [Option.some.injEq] at h
        subst h
        rcases List.mem_cons.mp hs with rfl | hmem
        · exact betterThan_asymm hbc
        · exact ih hr s hmem
      · rw [if_neg hbc] at h
        simp only [Option.some.injEq] at h
        subst h
        rcases List.mem_cons.mp hs with rfl | hmem
        · exact betterThan_irrefl s
        · have hbc2 : betterThan c x = false := by simpa using hbc
          exact betterThan_negtrans (ih hr s hmem) hbc2

/-- A two-stub registry in the given order selects the first stub when the
second does not outrank it. -/
theorem matchStub_pair_left {s1 s2 : Stub} {q : QueryIntent}
    (h1 : stubMatches s1 q = true) (h2 : stubMatches s2 q = true)
    (hb : betterThan s2 s1 = false) : matchStub [s1, s2] q = some s1 := by
  simp [matchStub, h1, h2, chooseBest, hb]

/-- A two-stub registry in the opposite order still selects the stub that
outranks the other. -/
theorem matchStub_pair_right {s1 s2 : Stub} {q : QueryIntent}
    (h1 : stubMatches s1 q = true) (h2 : stubMatches s2 q = true)
    (hb : betterThan s1 s2 = true) : matchStub [s2, s1] q = some s1 := by
  simp [matchStub, h1, h2, chooseBest, hb]

/- ## Claim theorems: matcher selection. -/

/-- C1: for every query intent and every pair of matching stubs with no
explicit priority, the one with strictly higher specificity is selected in
either registration order, and the less specific one is never selected from
any registry that also contains the more specific one. -/
theorem C1_specificity_wins (q : QueryIntent) (s1 s2 : Stub)
    (h1 : stubMatches s1 q = true) (h2 : stubMatches s2 q = true)
    (hp1 : s1.explicitPriority = none) (hp2 : s2.explicitPriority = none)
    (hspec : specificity s2 < specificity s1) :
    (matchStub [s1, s2] q = some s1 ∧ matchStub [s2, s1] q = some s1) ∧
      ∀ reg : Registry, s1 ∈ reg → matchStub reg q ≠ some s2 := by
  have hb21 : betterThan s2 s1 = false := by
    unfold betterThan
    rw [hp1, hp2]
    simp only [decide_eq_true_eq, Bool.or_eq_false_iff, Bool.and_eq_false_iff,
      decide_eq_false_iff_not]
    omega
  have hb12 : betterThan s1 s2 = true := by
    unfold betterThan
    rw [hp1, hp2]
    simp only [Bool.or_eq_true, decide_eq_true_eq]
    left
    exact hspec
  refine ⟨⟨matchStub_pair_left h1 h2 hb21, matchStub_pair_right h1 h2 hb12⟩, ?_⟩
  intro reg hmem heq
  have hfil : s1 ∈ reg.filter (fun s => stubMatches s q) :=
    List.mem_filter.mpr ⟨hmem, h1⟩
  have := chooseBest_max heq s1 hfil
  rw [hb12] at this
  exact Bool.true_eq_false.mp this

/-- C1 witness: the fully specified stub of the README's `TestGetBeer` beats
the wildcard catch-all on `beer` in both registration orders. -/
theorem C1_specificity_wins_witness :
    matchStub [stubFull, stubWild] (getBeerIntent 42) = some stubFull ∧
      matchStub [stubWild, stubFull] (getBeerIntent 42) = some stubFull :=
  (C1_specificity_wins (getBeerIntent 42) stubFull stubWild (by decide)
    (by decide) rfl rfl (by decide)).1

/-- C2: an explicit-priority stub is selected over every matching
implicit-specificity stub regardless of specificity; among explicit
priorities the higher value wins in either registration order; among equal
explicit priorities the earliest-registered (lowest id) stub wins in either
registration order. -/
theorem C2_priority_dominates :
    (∀ (q : QueryIntent) (reg : Registry) (t s : Stub),
        matchStub reg q = some t → s ∈ reg → stubMatches s q = true →
        s.explicitPriority.isSome = true → t.explicitPriority.isSome = true) ∧
    (∀ (q : QueryIntent) (s1 s2 : Stub),
        stubMatches s1 q = true → stubMatches s2 q = true →
        s1.explicitPriority.isSome = true → s2.explicitPriority = none →
        matchStub [s1, s2] q = some s1 ∧ matchStub [s2, s1] q = some s1) ∧
    (∀ (q : QueryIntent) (s1 s2 : Stub) (p1 p2 : Int),
        stubMatches s1 q = true → stubMatches s2 q = true →
        s1.explicitPriority = some p1 → s2.explicitPriority = some p2 →
        p2 < p1 →
        matchStub [s1, s2] q = some s1 ∧ matchStub [s2, s1] q = some s1) ∧
    (∀ (q : QueryIntent) (s1 s2 : Stub) (p : Int),
        stubMatches s1 q = true → stubMatches s2 q = true →
        s1.explicitPriority = some p → s2.explicitPriority = some p →
        s1.id < s2.id →
        matchStub [s1, s2] q = some s1 ∧ matchStub [s2, s1] q = some s1) := by
  refine ⟨?_, ?_, ?_, ?_⟩
  · intro q reg t s hm hmem hsm hps
    by_contra ht
    have htn : t.explicitPriority = none := by
      cases hh : t.explicitPriority with
      | none => rfl
      | some p => rw [hh] at ht; simp at ht
    obtain ⟨p, hp⟩ := Option.isSome_iff_exists.mp hps
    have hb : betterThan s t = true := by
      unfold betterThan
      rw [hp, htn]
    have hfil : s ∈ reg.filter (fun x => stubMatches x q) :=
      List.mem_filter.mpr ⟨hmem, hsm⟩
    have := chooseBest_max hm s hfil
    rw [hb] at this
    exact Bool.true_eq_false.mp this
  · intro q s1 s2 h1 h2 hp1 hp2
    obtain ⟨p, hp⟩ := Option.isSome_iff_exists.mp hp1
    have hb21 : betterThan s2 s1 = false := by
      unfold betterThan
      rw [hp2, hp]
    have hb12 : betterThan s1 s2 = true := by
      unfold betterThan
      rw [hp, hp2]
    exact ⟨matchStub_pair_left h1 h2 hb21, matchStub_pair_right h1 h2 hb12⟩
  · intro q s1 s2 p1 p2 h1 h2 hp1 hp2 hlt
    have hb21 : betterThan s2 s1 = false := by
      unfold betterThan
      rw [hp1, hp2]
      simp only [Bool.or_eq_false_iff, Bool.and_eq_false_iff,
        decide_eq_false_iff_not]
      omega
    have hb12 : betterThan s1 s2 = true := by
      unfold betterThan
      rw [hp1, hp2]
      simp only [Bool.or_eq_true, decide_eq_true_eq]
      left
      exact hlt
    exact ⟨matchStub_pair_left h1 h2 hb21, matchStub_pair_right h1 h2 hb12⟩
  · intro q s1 s2 p h1 h2 hp1 hp2 hid
    have hb21 : betterThan s2 s1 = false := by
      unfold betterThan
      rw [hp1, hp2]
      simp only [Bool.or_eq_false_iff, Bool.and_eq_false_iff,
        decide_eq_false_iff_not]
      omega
    have hb12 : betterThan s1 s2 = true := by
      unfold betterThan
      rw [hp1, hp2]
      simp [hid]
    exact ⟨matchStub_pair_left h1 h2 hb21, matchStub_pair_right h1 h2 hb12⟩

/-- C2 witness: a minimal-specificity stub with explicit priority 0 beats the
fully specified implicit stub in both registration orders. -/
theorem C2_priority_dominates_witness :
    matchStub [stubPrio, stubFull] (getBeerIntent 42) = some stubPrio ∧
      matchStub [stubFull, stubPrio] (getBeerIntent 42) = some stubPrio :=
  C2_priority_dominates.2.1 (getBeerIntent 42) stubPrio stubFull (by decide)
    (by decide) (by decide) rfl

/-- C3: a stub survives the filter step exactly when its table filter (if
set) equals the intent's table, its column filter is a subset of the
requested columns, each where-filter is matched by an equal predicate of the
intent, and the statement kinds agree; and a stub with no table, no columns
and no predicates matches every intent of a compatible statement kind with
the lowest possible specificity. -/
theorem C3_filter_characterisation (s : Stub) (q : QueryIntent) :
    (stubMatches s q = true ↔
      (s.kind = q.kind ∧
       (∀ t, s.tableFilter = some t → q.table = some t) ∧
       (∀ c ∈ s.columnFilter, c ∈ q.columns) ∧
       (∀ c v, (c, v) ∈ s.whereFilters →
          lookupPred q.predicates c = some v))) ∧
    (s.tableFilter = none → s.columnFilter = [] → s.whereFilters = [] →
      s.kind = q.kind →
      stubMatches s q = true ∧ specificity s = 0 ∧
        ∀ s2 : Stub, specificity s ≤ specificity s2) := by
  constructor
  · unfold stubMatches
    simp only [Bool.and_eq_true, decide_eq_true_eq, List.all_eq_true]
    constructor
    · rintro ⟨⟨⟨hk, ht⟩, hc⟩, hw⟩
      refine ⟨hk, ?_, hc, ?_⟩
      · intro t hts
        rw [hts] at ht
        simpa using ht
      · intro c v hcv
        exact hw (c, v) hcv
    · rintro ⟨hk, ht, hc, hw⟩
      refine ⟨⟨⟨hk, ?_⟩, hc⟩, ?_⟩
      · cases hts : s.tableFilter with
        | none => simp
        | some t => simpa using ht t hts
      · intro p hp
        exact hw p.1 p.2 hp
  · intro h1 h2 h3 h4
    refine ⟨?_, ?_, ?_⟩
    · unfold stubMatches
      rw [h1, h2, h3]
      simp [h4]
    · unfold specificity
      rw [h1, h2, h3]
      rfl
    · intro s2
      unfold specificity
      rw [h1, h2, h3]
      simp

/-- C3 witness: the concrete catch-all stub matches the README's `GetBeer`
intent with specificity zero, the least possible. -/
theorem C3_filter_characterisation_witness :
    stubMatches stubCatchAll (getBeerIntent 42) = true ∧
      specificity stubCatchAll = 0 ∧
      ∀ s2 : Stub, specificity stubCatchAll ≤ specificity s2 :=
  (C3_filter_characterisation stubCatchAll (getBeerIntent 42)).2
    rfl rfl rfl rfl

/- ## Claim theorems: driver behaviour on the README's fixtures. -/

/-- C5: the registry of `TestGetBeerMissing` answers the matching query
(`id = 99`) with the declared error value `sql.ErrNoRows`, unwrapped, and
answers the non-matching query (`id = 42`) with the `Unstubbed` error. -/
theorem C5_stub_error_propagated :
    driverQuery regBeerErr (getBeerIntent 99) = .error .errNoRows ∧
      GetBeer regBeerErr 99 = (zeroBeer, some .errNoRows) ∧
      driverQuery regBeerErr (getBeerIntent 42) = .error .errUnstubbed ∧
      GetBeer regBeerErr 42 = (zeroBeer, some .errUnstubbed) :=
  ⟨rfl, rfl, rfl, rfl⟩

/-- C6: `reset()` leaves the registry empty, the matcher's candidate set is
empty for every intent on the reset registry, and every query against it
returns the `Unstubbed` error. -/
theorem C6_reset_unstubbed (reg : Registry) (q : QueryIntent) :
    reset reg = [] ∧ matchStub (reset reg) q = none ∧
      driverQuery (reset reg) q = .error .errUnstubbed :=
  ⟨rfl, rfl, rfl⟩

/-- C9: matching never mutates the registry — running any sequence of
queries leaves the registry identical, and every query in the sequence is
answered exactly as against the original registry, so a stub can answer any
number of matching queries. -/
theorem C9_matching_pure (reg : Registry) (qs : List QueryIntent) :
    (runQueries reg qs).2 = reg ∧
      (runQueries reg qs).1 = qs.map (fun q => driverQuery reg q) := by
  induction qs with
  | nil => exact ⟨rfl, rfl⟩
  | cons q rest ih =>
    simp only [runQueries, queryOp, List.map_cons]
    exact ⟨ih.1, by rw [ih.2]⟩

/- ## Character facts. -/

/-- The rendering of a digit is a digit character with the same value, and
is none of the separator, sign, dot or whitespace characters. -/
theorem digitChar_spec {d : Nat} (h : d < 10) :
    isDigitC (Nat.digitChar d) = true ∧ digitVal (Nat.digitChar d) = d ∧
      isWS (Nat.digitChar d) = false ∧ Nat.digitChar d ≠ ',' ∧
      Nat.digitChar d ≠ '.' ∧ Nat.digitChar d ≠ '\n' := by
  interval_cases d <;> exact ⟨by decide, by decide, by decide, by decide,
    by decide, by decide⟩

/-- A digit character is not a sign, separator, dot, line break or
whitespace. -/
theorem isDigitC_spec {c : Char} (h : isDigitC c = true) :
    c ≠ '-' ∧ c ≠ '+' ∧ c ≠ '.' ∧ c ≠ ',' ∧ c ≠ '\n' ∧ isWS c = false := by
  unfold isDigitC at h
  simp only [Bool.and_eq_true, decide_eq_true_eq] at h
  refine ⟨?_, ?_, ?_, ?_, ?_, ?_⟩
  · intro e; subst e; exact absurd h (by decide)
  · intro e; subst e; exact absurd h (by decide)
  · intro e; subst e; exact absurd h (by decide)
  · intro e; subst e; exact absurd h (by decide)
  · intro e; subst e; exact absurd h (by decide)
  · unfold isWS
    simp only [Bool.or_eq_false_iff, decide_eq_false_iff_not]
    refine ⟨⟨⟨?_, ?_⟩, ?_⟩, ?_⟩ <;>
      · intro e; subst e; exact absurd h (by decide)

/- ## Decimal rendering and parsing round-trip. -/

/-- Appending one character multiplies the value by ten and adds its
digit value. -/
theorem natVal_append_digit (xs : List Char) (c : Char) :
    natVal (xs ++ [c]) = 10 * natVal xs + digitVal c := by
  simp [natVal, List.foldl_append]

/-- The most-significant-first value of a rendered digit list equals its
little-endian value. -/
theorem natVal_of_digits (ds : List Nat) (h : ∀ d ∈ ds, d < 10) :
    natVal ((ds.map Nat.digitChar).reverse) = ofRev ds := by
  induction ds with
  | nil => rfl
  | cons d ds ih =>
    simp only [List.map_cons, List.reverse_cons]
    rw [natVal_append_digit, ih (fun x hx => h x (List.mem_cons_of_mem _ hx)),
      (digitChar_spec (h d (List.mem_cons_self _ _))).2.1]
    simp only [ofRev]
    omega

/-- With enough fuel, `digitsRev` renders exactly the digits of `n`: their
little-endian value is `n` and each digit is below ten. -/
theorem digitsRev_spec : ∀ fuel n, n ≤ fuel →
    ofRev (digitsRev fuel n) = n ∧ ∀ d ∈ digitsRev fuel n, d < 10 := by
  intro fuel
  induction fuel with
  | zero =>
    intro n h
    interval_cases n
    exact ⟨rfl, by simp [digitsRev]⟩
  | succ fuel ih =>
    intro n h
    by_cases h0 : n = 0
    · subst h0
      exact ⟨rfl, by simp [digitsRev]⟩
    · simp only [digitsRev, if_neg h0]
      have hdiv : n / 10 ≤ fuel := by omega
      obtain ⟨hval, hdig⟩ := ih (n / 10) hdiv
      refine ⟨?_, ?_⟩
      · simp only [ofRev, hval]
        omega
      · intro d hd
        rcases List.mem_cons.mp hd with rfl | hmem
        · exact Nat.mod_lt _ (by omega)
        · exact hdig d hmem

/-- `digitsRev` is non-empty on a non-zero input with non-zero fuel. -/
theorem digitsRev_ne_nil {fuel n : Nat} (hf : 1 ≤ fuel) (hn : n ≠ 0) :
    digitsRev fuel n ≠ [] := by
  cases fuel with
  | zero => omega
  | succ f => simp [digitsRev, hn]

/-- The decimal rendering of a natural number is never empty. -/
theorem natToChars_ne_nil (n : Nat) : natToChars n ≠ [] := by
  unfold natToChars
  split
  · simp
  · simp only [ne_eq, List.reverse_eq_nil_iff, List.map_eq_nil_iff]
    exact digitsRev_ne_nil (by omega) (by assumption)

/-- Every character of the decimal rendering is a digit. -/
theorem natToChars_all_digits (n : Nat) :
    ∀ c ∈ natToChars n, isDigitC c = true := by
  unfold natToChars
  split
  · intro c hc
    simp only [List.mem_singleton] at hc
    subst hc
    decide
  · intro c hc
    simp only [List.mem_reverse, List.mem_map] at hc
    obtain ⟨d, hd, rfl⟩ := hc
    exact (digitChar_spec ((digitsRev_spec n n le_rfl).2 d hd)).1

/-- Parsing back the decimal rendering recovers the number. -/
theorem natVal_natToChars (n : Nat) : natVal (natToChars n) = n := by
  unfold natToChars
  split
  · rename_i h0
    subst h0
    decide
  · rw [natVal_of_digits _ (digitsRev_spec n n le_rfl).2,
      (digitsRev_spec n n le_rfl).1]

/-- Full parser round-trip on the decimal rendering of a natural number. -/
theorem parseNatChars_natToChars (n : Nat) :
    parseNatChars (natToChars n) = some n := by
  unfold parseNatChars
  rw [if_neg, if_pos, natVal_natToChars]
  · exact List.all_eq_true.mpr (natToChars_all_digits n)
  · simp only [List.isEmpty_iff]
    exact natToChars_ne_nil n

/-- Digit-count bound: a number below `10 ^ e` has at most `e` digits. -/
theorem digitsRev_length_le : ∀ fuel n e, n ≤ fuel → n < 10 ^ e →
    (digitsRev fuel n).length ≤ e := by
  intro fuel
  induction fuel with
  | zero =>
    intro n e h _
    interval_cases n
    simp [digitsRev]
  | succ f ih =>
    intro n e h hlt
    by_cases h0 : n = 0
    · subst h0
      simp [digitsRev]
    · simp only [digitsRev, if_neg h0, List.length_cons]
      have he : 1 ≤ e := by
        by_contra hc
        push_neg at hc
        interval_cases e
        simp at hlt
        omega
      have h10 : 10 ^ e = 10 ^ (e - 1) * 10 := by
        rw [← pow_succ]
        congr 1
        omega
      have hq : n / 10 < 10 ^ (e - 1) := by
        rw [Nat.div_lt_iff_lt_mul (by omega)]
        omega
      have := ih (n / 10) (e - 1) (by omega) hq
      omega

/-- Rendering-length bound: a number below `10 ^ e` (with `e ≥ 1`) renders
to at most `e` characters. -/
theorem natToChars_length_le {r e : Nat} (he : 1 ≤ e) (h : r < 10 ^ e) :
    (natToChars r).length ≤ e := by
  unfold natToChars
  split
  · simpa using he
  · simp only [List.length_reverse, List.length_map]
    exact digitsRev_length_le r r e le_rfl h

/-- The zero-padded fractional rendering has exactly `e` characters. -/
theorem padDigits_length {e r : Nat} (he : 1 ≤ e) (h : r < 10 ^ e) :
    (padDigits e r).length = e := by
  unfold padDigits
  simp only [List.length_append, List.length_replicate]
  have := natToChars_length_le he h
  omega

/-- Leading zeros do not change a parsed value. -/
theorem natVal_replicate_zero (k : Nat) (ds : List Char) :
    natVal (List.replicate k '0' ++ ds) = natVal ds := by
  induction k with
  | zero => rfl
  | succ k ih =>
    have : List.replicate (k + 1) '0' ++ ds = '0' :: (List.replicate k '0' ++ ds) := by
      simp [List.replicate_succ]
    rw [this]
    unfold natVal at ih ⊢
    simpa [List.foldl_cons] using ih

/-- Parsing the zero-padded fractional rendering recovers the number. -/
theorem natVal_padDigits (e r : Nat) : natVal (padDigits e r) = r := by
  unfold padDigits
  rw [natVal_replicate_zero, natVal_natToChars]

/-- Every character of the zero-padded rendering is a digit. -/
theorem padDigits_all_digits (e r : Nat) :
    ∀ c ∈ padDigits e r, isDigitC c = true := by
  intro c hc
  unfold padDigits at hc
  rcases List.mem_append.mp hc with hm | hm
  · rw [List.eq_of_mem_replicate hm]
    decide
  · exact natToChars_all_digits r c hm

/- ## Splitting and joining. -/

/-- The splitter always produces at least one part. -/
theorem splitChars_ne_nil (sep : Char) (cs : List Char) :
    splitChars sep cs ≠ [] := by
  induction cs with
  | nil => simp [splitChars]
  | cons c cs ih =>
    simp only [splitChars]
    split
    · simp
    · cases splitChars sep cs <;> simp

/-- A separator-free list splits into itself alone. -/
theorem splitChars_not_mem {sep : Char} {cs : List Char} (h : sep ∉ cs) :
    splitChars sep cs = [cs] := by
  induction cs with
  | nil => rfl
  | cons c cs ih =>
    have hc : ¬(c = sep) := fun e => h (e ▸ List.mem_cons_self _ _)
    have hcs : sep ∉ cs := fun hx => h (List.mem_cons_of_mem _ hx)
    simp only [splitChars, if_neg hc]
    rw [ih hcs]

/-- Every character of every part comes from the input and differs from the
separator. -/
theorem splitChars_mem_spec {sep : Char} : ∀ {cs : List Char},
    ∀ p ∈ splitChars sep cs, ∀ c ∈ p, c ∈ cs ∧ c ≠ sep := by
  intro cs
  induction cs with
  | nil =>
    intro p hp c hc
    simp only [splitChars, List.mem_singleton] at hp
    subst hp
    simp at hc
  | cons x cs ih =>
    intro p hp c hc
    simp only [splitChars] at hp
    by_cases hx : x = sep
    · rw [if_pos hx] at hp
      rcases List.mem_cons.mp hp with rfl | hmem
      · simp at hc
      · obtain ⟨h1, h2⟩ := ih p hmem c hc
        exact ⟨List.mem_cons_of_mem _ h1, h2⟩
    · rw [if_neg hx] at hp
      cases hsc : splitChars sep cs with
      | nil => exact absurd hsc (splitChars_ne_nil _ _)
      | cons hd tl =>
        rw [hsc] at hp
        simp only [] at hp
        rcases List.mem_cons.mp hp with rfl | hmem
        · rcases List.mem_cons.mp hc with rfl | hcm
          · exact ⟨List.mem_cons_self _ _, hx⟩
          · obtain ⟨h1, h2⟩ := ih hd (hsc ▸ List.mem_cons_self _ _) c hcm
            exact ⟨List.mem_cons_of_mem _ h1, h2⟩
        · obtain ⟨h1, h2⟩ := ih p (hsc ▸ List.mem_cons_of_mem _ hmem) c hc
          exact ⟨List.mem_cons_of_mem _ h1, h2⟩

/-- Splitting after a separator-free prefix extends the first part. -/
theorem splitChars_append {sep : Char} : ∀ {p : List Char}, sep ∉ p →
    ∀ {t q : List Char} {qs : List (List Char)},
      splitChars sep t = q :: qs →
      splitChars sep (p ++ t) = (p ++ q) :: qs := by
  intro p
  induction p with
  | nil =>
    intro _ t q qs ht
    simpa using ht
  | cons x p ih =>
    intro hp t q qs ht
    have hx : ¬(x = sep) := fun e => hp (e ▸ List.mem_cons_self _ _)
    have hps : sep ∉ p := fun hm => hp (List.mem_cons_of_mem _ hm)
    simp only [List.cons_append, splitChars, if_neg hx]
    rw [List.append_eq, ih hps ht]

/-- Splitting is a left inverse of joining on non-empty, separator-free part
lists. -/
theorem splitChars_intercalate {sep : Char} : ∀ {parts : List (List Char)},
    parts ≠ [] → (∀ p ∈ parts, sep ∉ p) →
    splitChars sep (intercalateChar sep parts) = parts := by
  intro parts
  induction parts with
  | nil => intro h; exact absurd rfl h
  | cons p ps ih =>
    intro _ hfree
    cases ps with
    | nil =>
      show splitChars sep (intercalateChar sep [p]) = [p]
      simp only [intercalateChar]
      exact splitChars_not_mem (hfree p (List.mem_cons_self _ _))
    | cons p2 ps2 =>
      have hrest : splitChars sep (intercalateChar sep (p2 :: ps2)) = p2 :: ps2 :=
        ih (by simp) (fun x hx => hfree x (List.mem_cons_of_mem _ hx))
      have hsep : splitChars sep (sep :: intercalateChar sep (p2 :: ps2)) =
          [] :: p2 :: ps2 := by
        simp [splitChars, hrest]
      have hmain := splitChars_append (hfree p (List.mem_cons_self _ _)) hsep
      show splitChars sep (p ++ sep :: intercalateChar sep (p2 :: ps2)) = _
      rw [hmain]
      simp

/-- Every character of a joined list is a separator or comes from one of the
parts. -/
theorem intercalateChar_mem {sep c : Char} : ∀ {parts : List (List Char)},
    c ∈ intercalateChar sep parts → c = sep ∨ ∃ p ∈ parts, c ∈ p := by
  intro parts
  induction parts with
  | nil => intro h; simp [intercalateChar] at h
  | cons p ps ih =>
    intro h
    cases ps with
    | nil =>
      simp only [intercalateChar] at h
      exact Or.inr ⟨p, List.mem_cons_self _ _, h⟩
    | cons p2 ps2 =>
      simp only [intercalateChar, List.mem_append, List.mem_cons] at h
      rcases h with hm | rfl | hm
      · exact Or.inr ⟨p, List.mem_cons_self _ _, hm⟩
      · exact Or.inl rfl
      · rcases ih hm with rfl | ⟨x, hx, hcx⟩
        · exact Or.inl rfl
        · exact Or.inr ⟨x, List.mem_cons_of_mem _ hx, hcx⟩

/- ## Trimming. -/

/-- Dropping a satisfied prefix twice is the same as dropping it once. -/
theorem dropWhile_dropWhile (p : α → Bool) (l : List α) :
    (l.dropWhile p).dropWhile p = l.dropWhile p := by
  induction l with
  | nil => rfl
  | cons x xs ih =>
    by_cases hx : p x
    · simp [List.dropWhile_cons, hx, ih]
    · simp [List.dropWhile_cons, hx]

/-- The first survivor of `dropWhile` fails the predicate. -/
theorem head?_dropWhile_false {p : α → Bool} : ∀ {l : List α} {x : α},
    (l.dropWhile p).head? = some x → p x = false := by
  intro l
  induction l with
  | nil => intro x h; simp at h
  | cons c t ih =>
    intro x h
    by_cases hc : p c
    · rw [List.dropWhile_cons, if_pos hc] at h
      exact ih h
    · rw [List.dropWhile_cons, if_neg hc] at h
      simp only [List.head?_cons, Option.some.injEq] at h
      subst h
      simpa using hc

/-- `dropWhile` keeps the last element when it keeps anything. -/
theorem getLast?_dropWhile {p : α → Bool} : ∀ {l : List α},
    l.dropWhile p ≠ [] → (l.dropWhile p).getLast? = l.getLast? := by
  intro l
  induction l with
  | nil => intro h; simp at h
  | cons c t ih =>
    intro h
    by_cases hc : p c
    · rw [List.dropWhile_cons, if_pos hc] at h ⊢
      rw [ih h]
      cases ht : t with
      | nil =>
        subst ht
        simp at h
      | cons y ys => simp [List.getLast?_cons_cons]
    · rw [List.dropWhile_cons, if_neg hc]

/-- `dropWhile` is the identity when nothing satisfies the predicate. -/
theorem dropWhile_eq_self_of_all {p : α → Bool} {l : List α}
    (h : ∀ c ∈ l, p c = false) : l.dropWhile p = l := by
  cases l with
  | nil => rfl
  | cons x xs =>
    rw [List.dropWhile_cons, if_neg]
    simp [h x (List.mem_cons_self _ _)]

/-- Trimming a list with no whitespace at all is the identity. -/
theorem trimChars_eq_self {cs : List Char} (h : ∀ c ∈ cs, isWS c = false) :
    trimChars cs = cs := by
  unfold trimChars
  rw [dropWhile_eq_self_of_all h,
    dropWhile_eq_self_of_all (fun c hc => h c (List.mem_reverse.mp hc)),
    List.reverse_reverse]

/-- Every character of the trimmed list comes from the original. -/
theorem mem_trimChars : ∀ {cs : List Char} {c : Char},
    c ∈ trimChars cs → c ∈ cs := by
  intro cs c h
  unfold trimChars at h
  rw [List.mem_reverse] at h
  have h2 := (List.dropWhile_sublist (l := (cs.dropWhile isWS).reverse) isWS).subset h
  rw [List.mem_reverse] at h2
  exact (List.dropWhile_sublist isWS).subset h2

/-- Trimming is idempotent. -/
theorem trimChars_idem (cs : List Char) : trimChars (trimChars cs) = trimChars cs := by
  by_cases hnil : trimChars cs = []
  · rw [hnil]
    rfl
  · have hdrop : (trimChars cs).dropWhile isWS = trimChars cs := by
      obtain ⟨x, u, hu⟩ := List.exists_cons_of_ne_nil hnil
      have hx : isWS x = false := by
        have hh : (trimChars cs).head? = some x := by rw [hu]; rfl
        unfold trimChars at hh
        rw [List.head?_reverse] at hh
        have hne : (cs.dropWhile isWS).reverse.dropWhile isWS ≠ [] := by
          intro he
          apply hnil
          unfold trimChars
          rw [he]
          rfl
        rw [getLast?_dropWhile hne, List.getLast?_reverse] at hh
        exact head?_dropWhile_false hh
      rw [hu, List.dropWhile_cons, if_neg (by simp [hx])]
    unfold trimChars at hdrop ⊢
    rw [hdrop, List.reverse_reverse, dropWhile_dropWhile]

/- ## Integer and decimal literal round-trips. -/

/-- Unfolding equation of the integer parser on a non-empty list. -/
theorem parseIntChars_cons (c : Char) (rest : List Char) :
    parseIntChars (c :: rest) =
      if c = '-' then (parseNatChars rest).map (fun n : Nat => -(n : Int))
      else if c = '+' then (parseNatChars rest).map (fun n : Nat => (n : Int))
      else (parseNatChars (c :: rest)).map (fun n : Nat => (n : Int)) := rfl

/-- Unfolding equation of the decimal parser on a non-empty list. -/
theorem parseDecChars_cons (c : Char) (rest : List Char) :
    parseDecChars (c :: rest) =
      if c = '-' then
        (parseDecCore rest).map (fun p : Nat × Nat => (-(p.1 : Int), p.2))
      else if c = '+' then
        (parseDecCore rest).map (fun p : Nat × Nat => ((p.1 : Int), p.2))
      else
        (parseDecCore (c :: rest)).map
          (fun p : Nat × Nat => ((p.1 : Int), p.2)) := rfl

/-- A list containing a non-digit never parses as a natural number. -/
theorem parseNatChars_none {cs : List Char} {c : Char} (hm : c ∈ cs)
    (hd : isDigitC c = false) : parseNatChars cs = none := by
  have hne : cs.isEmpty = false := by
    cases cs with
    | nil => simp at hm
    | cons a t => rfl
  have hall : cs.all isDigitC = false := by
    rw [← Bool.not_eq_true, List.all_eq_true]
    intro hc
    rw [hc c hm] at hd
    exact Bool.true_eq_false.mp hd
  simp [parseNatChars, hne, hall]

/-- A dot-free list never parses as a decimal literal. -/
theorem parseDecCore_no_dot {cs : List Char} (h : '.' ∉ cs) :
    parseDecCore cs = none := by
  unfold parseDecCore
  rw [splitChars_not_mem h]

/-- Parsing back the rendering of an integer recovers it. -/
theorem parseIntChars_intToChars (m : Int) :
    parseIntChars (intToChars m) = some m := by
  unfold intToChars
  by_cases hm : m < 0
  · rw [if_pos hm, parseIntChars_cons, if_pos rfl, parseNatChars_natToChars]
    simp only [Option.map_some', Option.some.injEq]
    omega
  · rw [if_neg hm]
    cases hnc : natToChars m.natAbs with
    | nil => exact absurd hnc (natToChars_ne_nil _)
    | cons c rest =>
      have hdig := natToChars_all_digits m.natAbs c (hnc ▸ List.mem_cons_self _ _)
      obtain ⟨h1, h2, _⟩ := isDigitC_spec hdig
      rw [parseIntChars_cons, if_neg h1, if_neg h2, ← hnc,
        parseNatChars_natToChars]
      simp only [Option.map_some', Option.some.injEq]
      omega

/-- The rendering of an integer never parses as a decimal literal. -/
theorem parseDecChars_intToChars (m : Int) :
    parseDecChars (intToChars m) = none := by
  have hnd : '.' ∉ natToChars m.natAbs := fun hm =>
    absurd rfl (isDigitC_spec (natToChars_all_digits _ _ hm)).2.2.1
  unfold intToChars
  by_cases hm : m < 0
  · rw [if_pos hm, parseDecChars_cons, if_pos rfl, parseDecCore_no_dot hnd]
    rfl
  · rw [if_neg hm]
    cases hnc : natToChars m.natAbs with
    | nil => exact absurd hnc (natToChars_ne_nil _)
    | cons c rest =>
      have hdig := natToChars_all_digits m.natAbs c (hnc ▸ List.mem_cons_self _ _)
      obtain ⟨h1, h2, _⟩ := isDigitC_spec hdig
      rw [parseDecChars_cons, if_neg h1, if_neg h2, ← hnc,
        parseDecCore_no_dot hnd]
      rfl

/-- Parsing back an unsigned rendered decimal recovers quotient, remainder
and scale. -/
theorem parseDecCore_encode {q r e : Nat} (he : 1 ≤ e) (hr : r < 10 ^ e) :
    parseDecCore (natToChars q ++ '.' :: padDigits e r) =
      some (q * 10 ^ e + r, e) := by
  have hA : '.' ∉ natToChars q := fun hm =>
    absurd rfl (isDigitC_spec (natToChars_all_digits _ _ hm)).2.2.1
  have hB : '.' ∉ padDigits e r := fun hm =>
    absurd rfl (isDigitC_spec (padDigits_all_digits _ _ _ hm)).2.2.1
  have hsDB : splitChars '.' ('.' :: padDigits e r) = [[], padDigits e r] := by
    simp [splitChars, splitChars_not_mem hB]
  have hsplit := splitChars_append hA hsDB
  have hBne : (padDigits e r).isEmpty = false := by
    have hlen := padDigits_length he hr
    cases hpd : padDigits e r with
    | nil =>
      rw [hpd] at hlen
      simp at hlen
      omega
    | cons a t => rfl
  unfold parseDecCore
  rw [hsplit]
  simp only [List.append_nil]
  show parseDecParts (natToChars q) (padDigits e r) = _
  unfold parseDecParts
  rw [hBne]
  simp only [Bool.false_eq_true, if_false]
  rw [List.all_eq_true.mpr (natToChars_all_digits q),
    List.all_eq_true.mpr (padDigits_all_digits e r)]
  simp only [Bool.and_self, if_true]
  rw [natVal_natToChars, natVal_padDigits, padDigits_length he hr]

/-- Parsing back the rendering of a scaled decimal recovers it exactly. -/
theorem parseDecChars_decToChars (m : Int) {e : Nat} (he : 1 ≤ e) :
    parseDecChars (decToChars m e) = some (m, e) := by
  have hr : m.natAbs % 10 ^ e < 10 ^ e := Nat.mod_lt _ (by positivity)
  have hq : m.natAbs / 10 ^ e * 10 ^ e + m.natAbs % 10 ^ e = m.natAbs := by
    have h0 := Nat.div_add_mod m.natAbs (10 ^ e)
    rw [Nat.mul_comm (10 ^ e) (m.natAbs / 10 ^ e)] at h0
    exact h0
  unfold decToChars
  rw [if_neg (by omega)]
  by_cases hm : m < 0
  · rw [if_pos hm]
    simp only [List.singleton_append, List.cons_append, List.nil_append]
    rw [parseDecChars_cons, if_pos rfl, parseDecCore_encode he hr]
    simp only [Option.map_some', Option.some.injEq, Prod.mk.injEq]
    refine ⟨?_, trivial⟩
    rw [hq]
    omega
  · rw [if_neg hm]
    simp only [List.nil_append]
    cases hnc : natToChars (m.natAbs / 10 ^ e) with
    | nil => exact absurd hnc (natToChars_ne_nil _)
    | cons c rest =>
      have hdig := natToChars_all_digits _ c (hnc ▸ List.mem_cons_self _ _)
      obtain ⟨h1, h2, _⟩ := isDigitC_spec hdig
      rw [List.cons_append, parseDecChars_cons, if_neg h1, if_neg h2,
        ← List.cons_append, ← hnc, parseDecCore_encode he hr]
      simp only [Option.map_some', Option.some.injEq, Prod.mk.injEq]
      refine ⟨?_, trivial⟩
      rw [hq]
      omega

/-- The rendering of a scaled decimal with a fractional part never parses as
an integer. -/
theorem parseIntChars_decToChars (m : Int) {e : Nat} (he : 1 ≤ e) :
    parseIntChars (decToChars m e) = none := by
  have hdot : '.' ∈ natToChars (m.natAbs / 10 ^ e) ++
      '.' :: padDigits e (m.natAbs % 10 ^ e) := by simp
  unfold decToChars
  rw [if_neg (by omega)]
  by_cases hm : m < 0
  · rw [if_pos hm]
    simp only [List.singleton_append, List.cons_append, List.nil_append]
    rw [parseIntChars_cons, if_pos rfl, parseNatChars_none hdot (by decide)]
    rfl
  · rw [if_neg hm]
    simp only [List.nil_append]
    cases hnc : natToChars (m.natAbs / 10 ^ e) with
    | nil => exact absurd hnc (natToChars_ne_nil _)
    | cons c rest =>
      have hdig := natToChars_all_digits _ c (hnc ▸ List.mem_cons_self _ _)
      obtain ⟨h1, h2, _⟩ := isDigitC_spec hdig
      rw [List.cons_append, parseIntChars_cons, if_neg h1, if_neg h2,
        ← List.cons_append, ← hnc, parseNatChars_none hdot (by decide)]
      rfl

/-- The decimal-parts parser only produces positive scales. -/
theorem parseDecParts_e_pos {ip fp : List Char} {v e : Nat}
    (h : parseDecParts ip fp = some (v, e)) : 1 ≤ e := by
  unfold parseDecParts at h
  split at h
  · simp at h
  · split at h
    · simp only [Option.some.injEq, Prod.mk.injEq] at h
      rename_i hfp _
      cases fp with
      | nil => simp at hfp
      | cons a t =>
        obtain ⟨_, he⟩ := h
        rw [← he]
        simp
    · simp at h

/-- The unsigned decimal parser only produces positive scales. -/
theorem parseDecCore_e_pos {cs : List Char} {v e : Nat}
    (h : parseDecCore cs = some (v, e)) : 1 ≤ e := by
  unfold parseDecCore at h
  split at h
  · exact parseDecParts_e_pos h
  · simp at h

/-- The signed decimal parser only produces positive scales. -/
theorem parseDecChars_e_pos : ∀ {cs : List Char} {m : Int} {e : Nat},
    parseDecChars cs = some (m, e) → 1 ≤ e := by
  intro cs m e h
  cases cs with
  | nil => simp [parseDecChars] at h
  | cons c rest =>
    rw [parseDecChars_cons] at h
    split at h
    · cases hc : parseDecCore rest with
      | none => rw [hc] at h; simp at h
      | some p =>
        rw [hc] at h
        simp only [Option.map_some', Option.some.injEq, Prod.mk.injEq] at h
        exact h.2 ▸ parseDecCore_e_pos hc
    · split at h
      · cases hc : parseDecCore rest with
        | none => rw [hc] at h; simp at h
        | some p =>
          rw [hc] at h
          simp only [Option.map_some', Option.some.injEq, Prod.mk.injEq] at h
          exact h.2 ▸ parseDecCore_e_pos hc
      · cases hc : parseDecCore (c :: rest) with
        | none => rw [hc] at h; simp at h
        | some p =>
          rw [hc] at h
          simp only [Option.map_some', Option.some.injEq, Prod.mk.injEq] at h
          exact h.2 ▸ parseDecCore_e_pos hc

/- ## Character sets of rendered values. -/

/-- The rendering of an integer contains no whitespace, comma or line
break. -/
theorem intToChars_chars (m : Int) :
    ∀ c ∈ intToChars m, isWS c = false ∧ c ≠ ',' ∧ c ≠ '\n' := by
  intro c hc
  unfold intToChars at hc
  split at hc
  · rcases List.mem_cons.mp hc with rfl | hm2
    · exact ⟨by decide, by decide, by decide⟩
    · have hs := isDigitC_spec (natToChars_all_digits _ _ hm2)
      exact ⟨hs.2.2.2.2.2, hs.2.2.2.1, hs.2.2.2.2.1⟩
  · have hs := isDigitC_spec (natToChars_all_digits _ _ hc)
    exact ⟨hs.2.2.2.2.2, hs.2.2.2.1, hs.2.2.2.2.1⟩

/-- The rendering of a scaled decimal contains no whitespace, comma or line
break. -/
theorem decToChars_chars (m : Int) (e : Nat) :
    ∀ c ∈ decToChars m e, isWS c = false ∧ c ≠ ',' ∧ c ≠ '\n' := by
  intro c hc
  unfold decToChars at hc
  split at hc
  · exact intToChars_chars m c hc
  · rcases List.mem_append.mp hc with h1 | h2
    · rcases List.mem_append.mp h1 with h3 | h4
      · split at h3
        · simp only [List.mem_singleton] at h3
          subst h3
          exact ⟨by decide, by decide, by decide⟩
        · simp at h3
      · have hs := isDigitC_spec (natToChars_all_digits _ _ h4)
        exact ⟨hs.2.2.2.2.2, hs.2.2.2.1, hs.2.2.2.2.1⟩
    · rcases List.mem_cons.mp h2 with rfl | h5
      · exact ⟨by decide, by decide, by decide⟩
      · have hs := isDigitC_spec (padDigits_all_digits _ _ _ h5)
        exact ⟨hs.2.2.2.2.2, hs.2.2.2.1, hs.2.2.2.2.1⟩

/- ## Field-level round-trips of the two conversion modes. -/

/-- Re-converting the literal form of an inferred value (with the same
inference) reproduces it, and that literal form is comma- and newline-free
whenever the originating trimmed field was. -/
theorem inferValue_roundtrip (g : List Char) (hg : trimChars g = g)
    (hcm : ',' ∉ g) (hnl : '\n' ∉ g) :
    inferValue (trimChars (encodeValChars (inferValue g))) = inferValue g ∧
      ',' ∉ encodeValChars (inferValue g) ∧
      '\n' ∉ encodeValChars (inferValue g) := by
  cases hp : parseIntChars g with
  | some m =>
    have hv : inferValue g = .int m := by simp [inferValue, hp]
    rw [hv]
    show inferValue (trimChars (intToChars m)) = Value.int m ∧
      ',' ∉ intToChars m ∧ '\n' ∉ intToChars m
    rw [trimChars_eq_self (fun c hc => (intToChars_chars m c hc).1)]
    refine ⟨?_, ?_, ?_⟩
    · simp [inferValue, parseIntChars_intToChars]
    · intro hc
      exact absurd rfl (intToChars_chars m _ hc).2.1
    · intro hc
      exact absurd rfl (intToChars_chars m _ hc).2.2
  | none =>
    cases hq : parseDecChars g with
    | some p =>
      have he : 1 ≤ p.2 := parseDecChars_e_pos (by rw [hq])
      have hv : inferValue g = .float p.1 p.2 := by simp [inferValue, hp, hq]
      rw [hv]
      show inferValue (trimChars (decToChars p.1 p.2)) = Value.float p.1 p.2 ∧
        ',' ∉ decToChars p.1 p.2 ∧ '\n' ∉ decToChars p.1 p.2
      rw [trimChars_eq_self (fun c hc => (decToChars_chars p.1 p.2 c hc).1)]
      refine ⟨?_, ?_, ?_⟩
      · simp [inferValue, parseIntChars_decToChars p.1 he,
          parseDecChars_decToChars p.1 he]
      · intro hc
        exact absurd rfl (decToChars_chars p.1 p.2 _ hc).2.1
      · intro hc
        exact absurd rfl (decToChars_chars p.1 p.2 _ hc).2.2
    | none =>
      have hv : inferValue g = .text (String.mk g) := by simp [inferValue, hp, hq]
      rw [hv]
      show inferValue (trimChars g) = Value.text (String.mk g) ∧
        ',' ∉ g ∧ '\n' ∉ g
      rw [hg]
      exact ⟨by simp [inferValue, hp, hq], hcm, hnl⟩

/-- Re-converting the literal form of a typed-converted value under the same
column type reproduces it, and that literal form is comma- and newline-free
whenever the originating trimmed field was. -/
theorem convertField_roundtrip (t : ColType) (g : List Char)
    (hg : trimChars g = g) (hcm : ',' ∉ g) (hnl : '\n' ∉ g) :
    convertField t (trimChars (encodeValChars (convertField t g))) =
        convertField t g ∧
      ',' ∉ encodeValChars (convertField t g) ∧
      '\n' ∉ encodeValChars (convertField t g) := by
  cases t with
  | text =>
    show Value.text (String.mk (trimChars g)) = Value.text (String.mk g) ∧
      ',' ∉ g ∧ '\n' ∉ g
    rw [hg]
    exact ⟨rfl, hcm, hnl⟩
  | int =>
    cases hp : parseIntChars g with
    | some m =>
      have hv : convertField .int g = .int m := by simp [convertField, hp]
      rw [hv]
      show convertField .int (trimChars (intToChars m)) = Value.int m ∧
        ',' ∉ intToChars m ∧ '\n' ∉ intToChars m
      rw [trimChars_eq_self (fun c hc => (intToChars_chars m c hc).1)]
      refine ⟨?_, ?_, ?_⟩
      · simp [convertField, parseIntChars_intToChars]
      · intro hc
        exact absurd rfl (intToChars_chars m _ hc).2.1
      · intro hc
        exact absurd rfl (intToChars_chars m _ hc).2.2
    | none =>
      have hv : convertField .int g = .text (String.mk g) := by
        simp [convertField, hp]
      rw [hv]
      show convertField .int (trimChars g) = Value.text (String.mk g) ∧
        ',' ∉ g ∧ '\n' ∉ g
      rw [hg]
      exact ⟨by simp [convertField, hp], hcm, hnl⟩
  | float =>
    cases hq : parseDecChars g with
    | some p =>
      have he : 1 ≤ p.2 := parseDecChars_e_pos (by rw [hq])
      have hv : convertField .float g = .float p.1 p.2 := by
        simp [convertField, hq]
      rw [hv]
      show convertField .float (trimChars (decToChars p.1 p.2)) =
          Value.float p.1 p.2 ∧
        ',' ∉ decToChars p.1 p.2 ∧ '\n' ∉ decToChars p.1 p.2
      rw [trimChars_eq_self (fun c hc => (decToChars_chars p.1 p.2 c hc).1)]
      refine ⟨?_, ?_, ?_⟩
      · simp [convertField, parseDecChars_decToChars p.1 he]
      · intro hc
        exact absurd rfl (decToChars_chars p.1 p.2 _ hc).2.1
      · intro hc
        exact absurd rfl (decToChars_chars p.1 p.2 _ hc).2.2
    | none =>
      cases hp : parseIntChars g with
      | some m =>
        have hv : convertField .float g = .float m 0 := by
          simp [convertField, hp, hq]
        rw [hv]
        have hdz : decToChars m 0 = intToChars m := rfl
        show convertField .float (trimChars (decToChars m 0)) =
            Value.float m 0 ∧
          ',' ∉ decToChars m 0 ∧ '\n' ∉ decToChars m 0
        rw [hdz, trimChars_eq_self (fun c hc => (intToChars_chars m c hc).1)]
        refine ⟨?_, ?_, ?_⟩
        · simp [convertField, parseDecChars_intToChars,
            parseIntChars_intToChars]
        · intro hc
          exact absurd rfl (intToChars_chars m _ hc).2.1
        · intro hc
          exact absurd rfl (intToChars_chars m _ hc).2.2
      | none =>
        have hv : convertField .float g = .text (String.mk g) := by
          simp [convertField, hp, hq]
        rw [hv]
        show convertField .float (trimChars g) = Value.text (String.mk g) ∧
          ',' ∉ g ∧ '\n' ∉ g
        rw [hg]
        exact ⟨by simp [convertField, hp, hq], hcm, hnl⟩

/- ## Sequencing lemmas. -/

/-- A successful sequence has the same length as its input. -/
theorem mapO_length {f : α → Option β} : ∀ {l : List α} {ys : List β},
    mapO f l = some ys → ys.length = l.length := by
  intro l
  induction l with
  | nil =>
    intro ys h
    simp only [mapO, Option.some.injEq] at h
    subst h
    rfl
  | cons x xs ih =>
    intro ys h
    simp only [mapO] at h
    cases hx : f x with
    | none => rw [hx] at h; simp at h
    | some y =>
      rw [hx] at h
      cases hxs : mapO f xs with
      | none => rw [hxs] at h; simp at h
      | some zs =>
        rw [hxs] at h
        simp only [Option.some.injEq] at h
        subst h
        simp [ih hxs]

/-- Every element of a successful sequence comes from an input element. -/
theorem mapO_mem {f : α → Option β} : ∀ {l : List α} {ys : List β},
    mapO f l = some ys → ∀ y ∈ ys, ∃ x ∈ l, f x = some y := by
  intro l
  induction l with
  | nil =>
    intro ys h y hy
    simp only [mapO, Option.some.injEq] at h
    subst h
    simp at hy
  | cons x xs ih =>
    intro ys h y hy
    simp only [mapO] at h
    cases hx : f x with
    | none => rw [hx] at h; simp at h
    | some z =>
      rw [hx] at h
      cases hxs : mapO f xs with
      | none => rw [hxs] at h; simp at h
      | some zs =>
        rw [hxs] at h
        simp only [Option.some.injEq] at h
        subst h
        rcases List.mem_cons.mp hy with rfl | hmem
        · exact ⟨x, List.mem_cons_self _ _, hx⟩
        · obtain ⟨x2, hx2, hf2⟩ := ih hxs y hmem
          exact ⟨x2, List.mem_cons_of_mem _ hx2, hf2⟩

/-- Sequencing over a list built by a pointwise right inverse succeeds. -/
theorem mapO_of_pointwise {f : α → Option β} (g : β → α) :
    ∀ {ys : List β}, (∀ y ∈ ys, f (g y) = some y) →
      mapO f (ys.map g) = some ys := by
  intro ys
  induction ys with
  | nil => intro _; rfl
  | cons y ys ih =>
    intro h
    simp only [List.map_cons, mapO, h y (List.mem_cons_self _ _),
      ih (fun z hz => h z (List.mem_cons_of_mem _ hz))]

/-- Sequencing fails exactly when some element fails. -/
theorem mapO_eq_none_iff {f : α → Option β} : ∀ {l : List α},
    mapO f l = none ↔ ∃ x ∈ l, f x = none := by
  intro l
  induction l with
  | nil => simp [mapO]
  | cons x xs ih =>
    simp only [mapO]
    cases hx : f x with
    | none => simp [hx]
    | some y =>
      cases hxs : mapO f xs with
      | none =>
        simp only [List.mem_cons]
        constructor
        · intro _
          obtain ⟨z, hz, hfz⟩ := ih.mp hxs
          exact ⟨z, Or.inr hz, hfz⟩
        · intro _; trivial
      | some zs =>
        simp only [List.mem_cons]
        constructor
        · intro h; simp at h
        · rintro ⟨z, rfl | hz, hfz⟩
          · rw [hfz] at hx; simp at hx
          · have : mapO f xs = none := ih.mpr ⟨z, hz, hfz⟩
            rw [this] at hxs
            simp at hxs

/-- Sequencing over pointwise-successful elements produces the mapped
list. -/
theorem mapO_map_of_some {f : α → Option β} {g : α → β} : ∀ {l : List α},
    (∀ x ∈ l, f x = some (g x)) → mapO f l = some (l.map g) := by
  intro l
  induction l with
  | nil => intro _; rfl
  | cons x xs ih =>
    intro h
    simp only [mapO, h x (List.mem_cons_self _ _),
      ih (fun z hz => h z (List.mem_cons_of_mem _ hz)), List.map_cons]

/- ## Row- and line-level round-trips. -/

/-- Unfolding equation of `decodeLine`. -/
theorem decodeLine_eq (sp : DecodeSpec) (line : List Char) :
    decodeLine sp line =
      if (splitChars ',' line).length = expectedCount sp then
        some (convertRow sp (splitChars ',' line))
      else none := rfl

/-- A converted row has the expected length when its field list does. -/
theorem convertRow_length {sp : DecodeSpec} {fs : List (List Char)}
    (h : fs.length = expectedCount sp) :
    (convertRow sp fs).length = expectedCount sp := by
  cases sp with
  | typed ts =>
    simp only [convertRow, List.length_zipWith, expectedCount] at h ⊢
    omega
  | untyped n => simpa [convertRow, expectedCount] using h

/-- Re-converting the encoded fields of a typed-converted row reproduces the
row, and all encoded fields are comma- and newline-free. -/
theorem convertRow_typed_rt : ∀ (ts : List ColType) (fs : List (List Char)),
    (∀ f ∈ fs, ',' ∉ f ∧ '\n' ∉ f) →
    List.zipWith (fun t f => convertField t (trimChars f)) ts
        ((List.zipWith (fun t f => convertField t (trimChars f)) ts fs).map
          encodeValChars) =
      List.zipWith (fun t f => convertField t (trimChars f)) ts fs ∧
    ∀ p ∈ (List.zipWith (fun t f => convertField t (trimChars f)) ts fs).map
        encodeValChars, ',' ∉ p ∧ '\n' ∉ p := by
  intro ts
  induction ts with
  | nil => intro fs hf; exact ⟨rfl, by simp⟩
  | cons t ts ih =>
    intro fs hf
    cases fs with
    | nil => exact ⟨rfl, by simp⟩
    | cons f fs2 =>
      obtain ⟨hrt, hcm, hnl⟩ := convertField_roundtrip t (trimChars f)
        (trimChars_idem f)
        (fun hm => (hf f (List.mem_cons_self _ _)).1 (mem_trimChars hm))
        (fun hm => (hf f (List.mem_cons_self _ _)).2 (mem_trimChars hm))
      obtain ⟨ih1, ih2⟩ := ih fs2 (fun x hx => hf x (List.mem_cons_of_mem _ hx))
      constructor
      · simp only [List.zipWith_cons_cons, List.map_cons]
        rw [hrt, ih1]
      · intro p hp
        simp only [List.zipWith_cons_cons, List.map_cons, List.mem_cons] at hp
        rcases hp with rfl | hp
        · exact ⟨hcm, hnl⟩
        · exact ih2 p hp

/-- Re-converting the encoded fields of an inferred row reproduces the row,
and all encoded fields are comma- and newline-free. -/
theorem convertRow_infer_rt : ∀ (fs : List (List Char)),
    (∀ f ∈ fs, ',' ∉ f ∧ '\n' ∉ f) →
    ((fs.map (fun f => inferValue (trimChars f))).map encodeValChars).map
        (fun f => inferValue (trimChars f)) =
      fs.map (fun f => inferValue (trimChars f)) ∧
    ∀ p ∈ (fs.map (fun f => inferValue (trimChars f))).map encodeValChars,
      ',' ∉ p ∧ '\n' ∉ p := by
  intro fs
  induction fs with
  | nil => intro _; exact ⟨rfl, by simp⟩
  | cons f fs2 ih =>
    intro hf
    obtain ⟨hrt, hcm, hnl⟩ := inferValue_roundtrip (trimChars f)
      (trimChars_idem f)
      (fun hm => (hf f (List.mem_cons_self _ _)).1 (mem_trimChars hm))
      (fun hm => (hf f (List.mem_cons_self _ _)).2 (mem_trimChars hm))
    obtain ⟨ih1, ih2⟩ := ih (fun x hx => hf x (List.mem_cons_of_mem _ hx))
    constructor
    · simp only [List.map_cons]
      rw [hrt, ih1]
    · intro p hp
      simp only [List.map_cons, List.mem_cons] at hp
      rcases hp with rfl | hp
      · exact ⟨hcm, hnl⟩
      · exact ih2 p hp

/-- Re-converting the encoded fields of any converted row reproduces it. -/
theorem convertRow_roundtrip (sp : DecodeSpec) (fs : List (List Char))
    (hf : ∀ f ∈ fs, ',' ∉ f ∧ '\n' ∉ f) :
    convertRow sp ((convertRow sp fs).map encodeValChars) = convertRow sp fs ∧
      ∀ p ∈ (convertRow sp fs).map encodeValChars, ',' ∉ p ∧ '\n' ∉ p := by
  cases sp with
  | typed ts => exact convertRow_typed_rt ts fs hf
  | untyped n => exact convertRow_infer_rt fs hf

/-- Decoding the encoded form of a decoded line reproduces the decoded row,
and the encoded line contains no line break. -/
theorem decodeLine_roundtrip (sp : DecodeSpec) (line : List Char)
    (row : List Value) (hnl : '\n' ∉ line)
    (h : decodeLine sp line = some row) :
    decodeLine sp (intercalateChar ',' (row.map encodeValChars)) = some row ∧
      ∀ c ∈ intercalateChar ',' (row.map encodeValChars), c ≠ '\n' := by
  rw [decodeLine_eq] at h
  by_cases hlen : (splitChars ',' line).length = expectedCount sp
  · rw [if_pos hlen] at h
    simp only [Option.some.injEq] at h
    have hf : ∀ f ∈ splitChars ',' line, ',' ∉ f ∧ '\n' ∉ f := by
      intro f hfm
      constructor
      · intro hc
        exact absurd rfl (splitChars_mem_spec f hfm ',' hc).2
      · intro hc
        exact hnl (splitChars_mem_spec f hfm '\n' hc).1
    obtain ⟨hrt, hparts⟩ := convertRow_roundtrip sp (splitChars ',' line) hf
    subst h
    have hrowlen : (convertRow sp (splitChars ',' line)).length = expectedCount sp :=
      convertRow_length hlen
    have hptsne : (convertRow sp (splitChars ',' line)).map encodeValChars ≠ [] := by
      intro h0
      have h1 : (convertRow sp (splitChars ',' line)).length = 0 := by
        rw [← List.length_map _ encodeValChars, h0]
        rfl
      rw [hrowlen] at h1
      cases hsp : splitChars ',' line with
      | nil => exact splitChars_ne_nil _ _ hsp
      | cons a t =>
        rw [hsp, h1] at hlen
        simp at hlen
    have hsplit : splitChars ','
        (intercalateChar ',' ((convertRow sp (splitChars ',' line)).map encodeValChars)) =
        (convertRow sp (splitChars ',' line)).map encodeValChars :=
      splitChars_intercalate hptsne (fun p hp => (hparts p hp).1)
    constructor
    · rw [decodeLine_eq, hsplit]
      rw [if_pos (by rw [List.length_map]; exact hrowlen)]
      rw [hrt]
    · intro c hc
      rcases intercalateChar_mem hc with rfl | ⟨p, hp, hcp⟩
      · decide
      · intro he
        subst he
        exact (hparts p hp).2 hcp
  · rw [if_neg hlen] at h
    simp at h

/-- Unfolding equation of `decodeCSV`. -/
theorem decodeCSV_eq (sp : DecodeSpec) (lit : String) :
    decodeCSV sp lit =
      match mapO (decodeLine sp) (splitChars '\n' lit.data) with
      | some rows => .ok rows
      | none => .error .malformedLiteral := rfl

/-- C7: the decoder is a deterministic function and decoding round-trips —
re-decoding the literal form of any RowSet the decoder produced, against the
same decoding context, reproduces identical typed values. -/
theorem C7_decoder_roundtrip (sp : DecodeSpec) (lit : String) (rs : RowSet)
    (h : decodeCSV sp lit = .ok rs) :
    decodeCSV sp (encodeRows rs) = .ok rs := by
  rw [decodeCSV_eq] at h
  cases hm : mapO (decodeLine sp) (splitChars '\n' lit.data) with
  | none =>
    rw [hm] at h
    have h2 : (Except.error .malformedLiteral : Except GoError RowSet) = .ok rs := h
    exact Except.noConfusion h2
  | some rows =>
    rw [hm] at h
    have h2 : (Except.ok rows : Except GoError RowSet) = .ok rs := h
    have hrs : rows = rs := Except.ok.inj h2
    subst hrs
    have hrt : ∀ row ∈ rows,
        decodeLine sp (intercalateChar ',' (row.map encodeValChars)) = some row ∧
        ∀ c ∈ intercalateChar ',' (row.map encodeValChars), c ≠ '\n' := by
      intro row hrow
      obtain ⟨line, hlm, hdec⟩ := mapO_mem hm row hrow
      exact decodeLine_roundtrip sp line row
        (fun hc => absurd rfl (splitChars_mem_spec line hlm '\n' hc).2) hdec
    have hne : rows ≠ [] := by
      intro h0
      have hlen := mapO_length hm
      rw [h0] at hlen
      cases hsp : splitChars '\n' lit.data with
      | nil => exact splitChars_ne_nil _ _ hsp
      | cons a t =>
        rw [hsp] at hlen
        simp at hlen
    have hfree : ∀ p ∈ rows.map
        (fun row => intercalateChar ',' (row.map encodeValChars)), '\n' ∉ p := by
      intro p hp hc
      obtain ⟨row, hrow, rfl⟩ := List.mem_map.mp hp
      exact (hrt row hrow).2 '\n' hc rfl
    have hdata : (encodeRows rows).data = intercalateChar '\n'
        (rows.map (fun row => intercalateChar ',' (row.map encodeValChars))) := rfl
    rw [decodeCSV_eq, hdata,
      splitChars_intercalate (by simpa using hne) hfree,
      mapO_of_pointwise _ (fun row hrow => (hrt row hrow).1)]

/-- C7 witness: the README literal decodes, and re-decoding its encoded
RowSet reproduces it. -/
theorem C7_decoder_roundtrip_witness :
    decodeCSV (.untyped 3)
        (encodeRows [[.int 42, .text "Yona Yona Ale", .float 55 1]]) =
      .ok [[.int 42, .text "Yona Yona Ale", .float 55 1]] :=
  C7_decoder_roundtrip (.untyped 3) "42,Yona Yona Ale,5.5" _ rfl

/-- C8: the decoder fails with `MalformedLiteral` exactly when some row's
field count differs from the expected column count; when every row has the
expected field count it succeeds, each field trimmed and converted by the
declared column type or by integer-then-float-then-text inference. -/
theorem C8_malformed_iff (sp : DecodeSpec) (lit : String) :
    (decodeCSV sp lit = .error .malformedLiteral ↔
      ∃ line ∈ splitChars '\n' lit.data,
        (splitChars ',' line).length ≠ expectedCount sp) ∧
    ((∀ line ∈ splitChars '\n' lit.data,
        (splitChars ',' line).length = expectedCount sp) →
      decodeCSV sp lit =
        .ok ((splitChars '\n' lit.data).map
          (fun line => convertRow sp (splitChars ',' line)))) := by
  have hnone : ∀ line, decodeLine sp line = none ↔
      (splitChars ',' line).length ≠ expectedCount sp := by
    intro line
    rw [decodeLine_eq]
    split
    · rename_i hl
      simp [hl]
    · rename_i hl
      simp [hl]
  constructor
  · constructor
    · intro h
      rw [decodeCSV_eq] at h
      cases hm : mapO (decodeLine sp) (splitChars '\n' lit.data) with
      | some rows =>
        rw [hm] at h
        have h2 : (Except.ok rows : Except GoError RowSet) =
            .error .malformedLiteral := h
        exact Except.noConfusion h2
      | none =>
        obtain ⟨line, hl, hdl⟩ := mapO_eq_none_iff.mp hm
        exact ⟨line, hl, (hnone line).mp hdl⟩
    · rintro ⟨line, hl, hlen⟩
      have hm : mapO (decodeLine sp) (splitChars '\n' lit.data) = none :=
        mapO_eq_none_iff.mpr ⟨line, hl, (hnone line).mpr hlen⟩
      rw [decodeCSV_eq, hm]
  · intro hall
    have hm : mapO (decodeLine sp) (splitChars '\n' lit.data) =
        some ((splitChars '\n' lit.data).map
          (fun line => convertRow sp (splitChars ',' line))) :=
      mapO_map_of_some (fun line hl => by
        rw [decodeLine_eq, if_pos (hall line hl)])
    rw [decodeCSV_eq, hm]

/-- C8 witness: a two-field row against three expected columns is malformed,
and a three-field row decodes to the converted fields. -/
theorem C8_malformed_iff_witness :
    decodeCSV (.untyped 3) "1,2" = .error .malformedLiteral ∧
      decodeCSV (.untyped 3) "1,2,3" =
        .ok ((splitChars '\n' ("1,2,3" : String).data).map
          (fun line => convertRow (.untyped 3) (splitChars ',' line))) :=
  ⟨(C8_malformed_iff (.untyped 3) "1,2").1.mpr (by decide),
   (C8_malformed_iff (.untyped 3) "1,2,3").2 (by decide)⟩

/-- C4: decoding the README literal against declared columns
`(id:int, name:text, pct:float)` yields exactly one row of the three typed
values, and `GetBeer` through the driver stubbed with that literal scans
back exactly those values. -/
theorem C4_decode_literal :
    decodeCSV (.typed [.int, .text, .float]) "42,Yona Yona Ale,5.5" =
      .ok [[.int 42, .text "Yona Yona Ale", .float 55 1]] ∧
      GetBeer regBeer 42 =
        ({ ID := 42, Name := "Yona Yona Ale", Pct := (55, 1) }, none) :=
  ⟨rfl, rfl⟩

/-- The scan step only ever reports a conversion mismatch as its own
error. -/
theorem scanBeerRow_err : ∀ (row : List Value) (e : GoError),
    (scanBeerRow row).2 = some e → e = .scanMismatch := by
  intro row e h
  rcases row with _ | ⟨a, _ | ⟨b, _ | ⟨c, _ | ⟨d, t⟩⟩⟩⟩
  · simp [scanBeerRow] at h
    first | exact h | exact h.symm
  · simp [scanBeerRow] at h
    first | exact h | exact h.symm
  · simp [scanBeerRow] at h
    first | exact h | exact h.symm
  · cases hA : scanInt a with
    | none =>
      simp [scanBeerRow, hA] at h
      first | exact h | exact h.symm
    | some i =>
      cases hB : scanText b with
      | none =>
        simp [scanBeerRow, hA, hB] at h
        first | exact h | exact h.symm
      | some nm =>
        cases hC : scanFloat c with
        | none =>
          simp [scanBeerRow, hA, hB, hC] at h
          first | exact h | exact h.symm
        | some p => simp [scanBeerRow, hA, hB, hC] at h
  · simp [scanBeerRow] at h
    first | exact h | exact h.symm

/-- C10 (amended): whenever `GetBeer` returns an error other than a mid-scan
conversion mismatch, the returned `Beer` is the zero value. -/
theorem C10_zero_on_error (reg : Registry) (id : Int) (e : GoError)
    (h : (GetBeer reg id).2 = some e) (hne : e ≠ .scanMismatch) :
    (GetBeer reg id).1 = zeroBeer := by
  unfold GetBeer at h ⊢
  cases hq : driverQuery reg (getBeerIntent id) with
  | error e2 => rfl
  | ok rows =>
    rw [hq] at h
    cases rows with
    | nil => rfl
    | cons row rest => exact absurd (scanBeerRow_err row e h) hne

/-- C10 witness: on the unstubbed path the returned `Beer` is the zero
value. -/
theorem C10_zero_on_error_witness : (GetBeer [] 5).1 = zeroBeer :=
  C10_zero_on_error [] 5 .errUnstubbed rfl (by decide)

/-- C10 counterexample: a matched stub whose third field is not numeric
makes the scan fail after the first two destinations are assigned, so
`GetBeer` returns a non-nil error together with a partially populated
`Beer`. -/
theorem C10_partial_on_scan_error :
    (GetBeer regBad 1).2.isSome = true ∧ (GetBeer regBad 1).1 ≠ zeroBeer :=
  ⟨rfl, by decide⟩
